import Mathlib

/-!
Verification of the RocksDB-backed tree store (`src/rocksdb_store.rs`).

The store persists tree nodes, versioned values and preimages in one ordered
byte-string engine.  Keys and values are encoded with bincode's legacy
configuration: fixed-width integers, little-endian byte order, and decoding
that tolerates trailing bytes.  Bytes are modelled as natural numbers, byte
strings as lists, and the engine as an association list from key bytes to
value bytes.
-/

namespace JmtDb

/-- Little-endian fixed-width 8-byte encoding of a 64-bit integer, as bincode
writes a `u64` with its legacy (fixint, little-endian) configuration. -/
def u64LE (v : Nat) : List Nat :=
  [v % 256, v / 256 % 256, v / 65536 % 256, v / 16777216 % 256,
   v / 4294967296 % 256, v / 1099511627776 % 256,
   v / 281474976710656 % 256, v / 72057594037927936 % 256]

/-- Value of a little-endian byte list. -/
def leVal (l : List Nat) : Nat :=
  l.foldr (fun b acc => b + 256 * acc) 0

/-- A well-formed content key hash: the 32 raw bytes of a `KeyHash([u8; 32])`. -/
def wfHash (h : List Nat) : Prop :=
  h.length = 32 ∧ ∀ b ∈ h, b < 256

instance (h : List Nat) : Decidable (wfHash h) := by
  unfold wfHash; infer_instance

/-- Engine state: an association list from key bytes to value bytes, in
iteration order.  RocksDB keeps keys unique; `dbPut` preserves that. -/
abbrev DB : Type := List (List Nat × List Nat)

/-- Engine point lookup (`db.get`): first entry with the given key. -/
def dbGet : DB → List Nat → Option (List Nat)
  | [], _ => none
  | e :: rest, key => if e.1 = key then some e.2 else dbGet rest key

/-- Engine single-key put: overwrite the existing entry or append a new one. -/
def dbPut (db : DB) (key val : List Nat) : DB :=
  if db.any (fun e => e.1 = key) then
    db.map (fun e => if e.1 = key then (key, val) else e)
  else
    db ++ [(key, val)]

/-- Apply a batch of puts in order (the effect of one engine `WriteBatch`). -/
def applyPuts (db : DB) (puts : List (List Nat × List Nat)) : DB :=
  puts.foldl (fun d p => dbPut d p.1 p.2) db

/-- The engine operations the store can issue: point get, full iteration,
and one atomic multi-put write. -/
inductive EngineOp : Type where
  | get : List Nat → EngineOp
  | iterate : EngineOp
  | atomicWrite : List (List Nat × List Nat) → EngineOp

/-- Only `atomicWrite` mutates the engine. -/
def isWriteOp : EngineOp → Bool
  | EngineOp.atomicWrite _ => true
  | _ => false

/-- Engine semantics of one operation. -/
def applyOp (db : DB) : EngineOp → DB
  | EngineOp.get _ => db
  | EngineOp.iterate => db
  | EngineOp.atomicWrite puts => applyPuts db puts

/-- Engine semantics of an operation sequence. -/
def applyOps (db : DB) (ops : List EngineOp) : DB :=
  ops.foldl applyOp db

instance {e a : Type} [DecidableEq e] [DecidableEq a] :
    DecidableEq (Except e a) := fun x y =>
  match x, y with
  | Except.error u, Except.error w =>
    if h : u = w then isTrue (by rw [h])
    else isFalse fun he => h (by injection he)
  | Except.error _, Except.ok _ => isFalse fun he => Except.noConfusion he
  | Except.ok _, Except.error _ => isFalse fun he => Except.noConfusion he
  | Except.ok u, Except.ok w =>
    if h : u = w then isTrue (by rw [h])
    else isFalse fun he => h (by injection he)

/-- Encoded key of a versioned value entry:
`bincode::serialize(&(key_hash, version))`, i.e. the 32 hash bytes followed
by the version as 8 little-endian bytes (`write_node_batch`, line 116). -/
def encodeValueKey (h : List Nat) (v : Nat) : List Nat :=
  h ++ u64LE v

/-- Decoding a raw engine key as `(KeyHash, Version)`, as
`bincode::deserialize::<(KeyHash, Version)>` does in `get_value_option`
(line 72): read 32 bytes, read 8 little-endian bytes, ignore any trailing
bytes (bincode's legacy `deserialize` allows trailing bytes). -/
def decodeValueKey (k : List Nat) : Option (List Nat × Nat) :=
  if 40 ≤ k.length then some (k.take 32, leVal ((k.drop 32).take 8)) else none

/-- Encoded bytes of an `Option<Vec<u8>>` value payload: tag byte 0 for
`None`; tag byte 1 then a little-endian length and the raw bytes for
`Some`. -/
def encodeOptValue : Option (List Nat) → List Nat
  | none => [0]
  | some b => 1 :: (u64LE b.length ++ b)

/-- Decoding value bytes as `Option<Vec<u8>>`
(`bincode::deserialize::<Option<Vec<u8>>>` in `get_value_option`, line 80):
tag 0 is `None`, tag 1 is `Some` of a length-prefixed byte vector, any other
tag is a decode error; trailing bytes are tolerated. -/
def decodeOptValue (bytes : List Nat) : Option (Option (List Nat)) :=
  match bytes with
  | [] => none
  | tag :: rest =>
    if tag = 0 then some none
    else if tag = 1 then
      if 8 ≤ rest.length ∧ leVal (rest.take 8) ≤ (rest.drop 8).length then
        some (some ((rest.drop 8).take (leVal (rest.take 8))))
      else none
    else none

/-- The ASCII bytes of the string literal in the preimage key. -/
def preimageTag : List Nat := [112, 114, 101, 105, 109, 97, 103, 101]

/-- Encoded key of a preimage entry:
`bincode::serialize(&(key_hash, "preimage"))` (line 95): the 32 hash bytes,
the string length 8 as 8 little-endian bytes, then the 8 ASCII bytes. -/
def encodePreimageKey (h : List Nat) : List Nat :=
  h ++ u64LE 8 ++ preimageTag

/-- Byte-lexicographic strict order on byte strings: the engine's native key
comparator. -/
def lexLt : List Nat → List Nat → Bool
  | [], [] => false
  | [], _ :: _ => true
  | _ :: _, [] => false
  | a :: xs, b :: ys => if a < b then true else if a = b then lexLt xs ys else false

/-- Modelled from the spec: the crate's `NodeKey` type (`node_type.rs` is not
part of the adapter sources); per §3 it is a pair of a `u64` version and a
nibble-path, here a list of nibble bytes. -/
structure NodeKey : Type where
  version : Nat
  path : List Nat
deriving DecidableEq

/-- Modelled from the spec: the data of a leaf node, §3 `Leaf{content_key_hash,
value_hash}`, two 32-byte hashes. -/
structure LeafData : Type where
  keyHash : List Nat
  valueHash : List Nat
deriving DecidableEq

/-- Modelled from the spec: the crate's `Node` tagged union, §3: a leaf, or an
internal node holding a sparse child array keyed by branch index, children
referenced by `NodeKey`. -/
inductive Node : Type where
  | leaf : LeafData → Node
  | internal : List (Nat × NodeKey) → Node
deriving DecidableEq

/-- Modelled from the spec: the deterministic codec for `NodeKey`
(`bincode::serialize(node_key)` in the sources; the serde layout lives outside
them): fixed-width version, then a length-prefixed nibble sequence. -/
def encodeNodeKey (k : NodeKey) : List Nat :=
  u64LE k.version ++ u64LE k.path.length ++ k.path

/-- Decode a `NodeKey` from a byte stream, returning the remainder; trailing
bytes are tolerated as in bincode's legacy configuration. -/
def decodeNodeKeyT (b : List Nat) : Option (NodeKey × List Nat) :=
  if 16 ≤ b.length then
    if leVal ((b.drop 8).take 8) ≤ (b.drop 16).length then
      some (⟨leVal (b.take 8), (b.drop 16).take (leVal ((b.drop 8).take 8))⟩,
            (b.drop 16).drop (leVal ((b.drop 8).take 8)))
    else none
  else none

/-- Full-buffer decode of a `NodeKey` (`bincode::deserialize` on a node key). -/
def decodeNodeKey (b : List Nat) : Option NodeKey :=
  (decodeNodeKeyT b).map Prod.fst

/-- Modelled from the spec: one child reference of an internal node, a branch
index and the child's `NodeKey`. -/
def encodeChild (c : Nat × NodeKey) : List Nat :=
  u64LE c.1 ++ encodeNodeKey c.2

/-- Decode one child reference, returning the remainder. -/
def decodeChildT (b : List Nat) : Option ((Nat × NodeKey) × List Nat) :=
  if 8 ≤ b.length then
    match decodeNodeKeyT (b.drop 8) with
    | some (k, rest) => some ((leVal (b.take 8), k), rest)
    | none => none
  else none

/-- Decode a counted sequence of child references. -/
def decodeChildren : Nat → List Nat → Option (List (Nat × NodeKey) × List Nat)
  | 0, b => some ([], b)
  | n + 1, b =>
    match decodeChildT b with
    | some (c, rest) =>
      match decodeChildren n rest with
      | some (cs, rest2) => some (c :: cs, rest2)
      | none => none
    | none => none

/-- Modelled from the spec: the deterministic codec for `Node`
(`bincode::serialize(node)` in the sources): a discriminant byte per variant
(§4.5), then the leaf hashes or the length-prefixed child array. -/
def encodeNode : Node → List Nat
  | Node.leaf l => 0 :: (l.keyHash ++ l.valueHash)
  | Node.internal cs => 1 :: (u64LE cs.length ++ (cs.map encodeChild).flatten)

/-- Decode a `Node` (`bincode::deserialize` on node value bytes in
`get_node_option`, line 44); unknown discriminants are decode errors and
trailing bytes are tolerated. -/
def decodeNode (b : List Nat) : Option Node :=
  match b with
  | [] => none
  | tag :: rest =>
    if tag = 0 then
      if 64 ≤ rest.length then
        some (Node.leaf ⟨rest.take 32, (rest.drop 32).take 32⟩)
      else none
    else if tag = 1 then
      if 8 ≤ rest.length then
        match decodeChildren (leVal (rest.take 8)) (rest.drop 8) with
        | some (cs, _) => some (Node.internal cs)
        | none => none
      else none
    else none

/-- A `NodeKey` whose fields fit the on-disk 64-bit widths. -/
def wfNodeKey (k : NodeKey) : Prop :=
  k.version < 2 ^ 64 ∧ k.path.length < 2 ^ 64

/-- A `Node` whose fields fit the on-disk layout: 32-byte hashes in leaves,
64-bit child count and indices in internal nodes. -/
def wfNode : Node → Prop
  | Node.leaf l => l.keyHash.length = 32 ∧ l.valueHash.length = 32
  | Node.internal cs =>
      cs.length < 2 ^ 64 ∧ ∀ c ∈ cs, c.1 < 2 ^ 64 ∧ wfNodeKey c.2

/-- `TreeReader::get_node_option` (lines 40-49): encode the node key, point
lookup, decode the node bytes; a decode failure is surfaced as an error
(the `?` operator), absence as `Ok(None)`. -/
def get_node_option (db : DB) (nodeKey : NodeKey) : Except Unit (Option Node) :=
  match dbGet db (encodeNodeKey nodeKey) with
  | some bytes =>
    match decodeNode bytes with
    | some n => Except.ok (some n)
    | none => Except.error ()
  | none => Except.ok none

/-- `TreeReader::get_rightmost_leaf` (lines 51-56): the adapter always answers
`Ok(None)` without touching the engine. -/
def get_rightmost_leaf (_db : DB) : Except Unit (Option (NodeKey × LeafData)) :=
  Except.ok none

/-- One iteration step of `get_value_option`'s scan (lines 68-86).  The
accumulator mirrors `(latest_value, latest_version)`.  A key that does not
decode as `(KeyHash, Version)` is skipped; on a hit with a newer version,
`latest_version` is always updated while `latest_value` is updated only when
the value bytes decode (the `if let Ok` at line 80). -/
def gvoStep (maxVersion : Nat) (keyHash : List Nat)
    (acc : Option (List Nat) × Option Nat) (entry : List Nat × List Nat) :
    Option (List Nat) × Option Nat :=
  match decodeValueKey entry.1 with
  | none => acc
  | some (h, v) =>
    if h = keyHash ∧ v ≤ maxVersion then
      match acc.2 with
      | none =>
        match decodeOptValue entry.2 with
        | some dv => (dv, some v)
        | none => (acc.1, some v)
      | some lv =>
        if lv < v then
          match decodeOptValue entry.2 with
          | some dv => (dv, some v)
          | none => (acc.1, some v)
        else acc
    else acc

/-- `TreeReader::get_value_option` (lines 58-90): scan every engine entry,
keep the matching entry with the largest version at most `maxVersion`, and
return its decoded payload; decode failures never error, and the function
returns `Ok` with the accumulated value. -/
def get_value_option (db : DB) (maxVersion : Nat) (keyHash : List Nat) :
    Except Unit (Option (List Nat)) :=
  Except.ok (db.foldl (gvoStep maxVersion keyHash) (none, none)).1

/-- `HasPreimage::preimage` (lines 93-101): encode the preimage key, point
lookup, and return the raw stored bytes without decoding them. -/
def preimage (db : DB) (keyHash : List Nat) : Except Unit (Option (List Nat)) :=
  Except.ok (dbGet db (encodePreimageKey keyHash))

/-- Engine operations issued by `get_node_option`: one point get. -/
def getNodeOptionOps (nodeKey : NodeKey) : List EngineOp :=
  [EngineOp.get (encodeNodeKey nodeKey)]

/-- Engine operations issued by `get_rightmost_leaf`: none. -/
def getRightmostLeafOps : List EngineOp := []

/-- Engine operations issued by `get_value_option`: one full iteration. -/
def getValueOptionOps : List EngineOp := [EngineOp.iterate]

/-- Engine operations issued by `preimage`: one point get. -/
def preimageOps (keyHash : List Nat) : List EngineOp :=
  [EngineOp.get (encodePreimageKey keyHash)]

/-- The crate's `NodeBatch` as used by `write_node_batch`: node pairs and
value pairs keyed by `(version, key_hash)`. -/
structure NodeBatch : Type where
  nodes : List (NodeKey × Node)
  values : List ((Nat × List Nat) × Option (List Nat))

/-- Serialize a list of batch entries, aborting on the first failure, as the
`?` operator does inside the loops of `write_node_batch`. -/
def encodeList {α : Type} (f : α → Except Unit (List Nat × List Nat)) :
    List α → Except Unit (List (List Nat × List Nat))
  | [] => Except.ok []
  | x :: rest =>
    match f x with
    | Except.error e => Except.error e
    | Except.ok p =>
      match encodeList f rest with
      | Except.error e => Except.error e
      | Except.ok ps => Except.ok (p :: ps)

/-- `TreeWriter::write_node_batch` (lines 104-123), abstracted over the two
fallible entry serializers: serialize every node pair, then every value pair,
failing fast; on success the staged puts form one engine write batch. -/
def writeNodeBatchGen
    (encNode : NodeKey × Node → Except Unit (List Nat × List Nat))
    (encVal : (Nat × List Nat) × Option (List Nat) → Except Unit (List Nat × List Nat))
    (batch : NodeBatch) : Except Unit (List (List Nat × List Nat)) :=
  match encodeList encNode batch.nodes with
  | Except.error e => Except.error e
  | Except.ok nodePuts =>
    match encodeList encVal batch.values with
    | Except.error e => Except.error e
    | Except.ok valuePuts => Except.ok (nodePuts ++ valuePuts)

/-- Engine operations issued by `write_node_batch`: none when serialization
fails (the error returns before `db.write`), otherwise exactly one atomic
write of the whole staged batch (line 121). -/
def writeNodeBatchOps
    (encNode : NodeKey × Node → Except Unit (List Nat × List Nat))
    (encVal : (Nat × List Nat) × Option (List Nat) → Except Unit (List Nat × List Nat))
    (batch : NodeBatch) : List EngineOp :=
  match writeNodeBatchGen encNode encVal batch with
  | Except.error _ => []
  | Except.ok puts => [EngineOp.atomicWrite puts]

/-- The concrete node-pair serializer of `write_node_batch` (lines 108-112):
`(bincode::serialize(node_key), bincode::serialize(node))`; total in this
embedding. -/
def encNodeEntryE (e : NodeKey × Node) : Except Unit (List Nat × List Nat) :=
  Except.ok (encodeNodeKey e.1, encodeNode e.2)

/-- The concrete value-pair serializer of `write_node_batch` (lines 115-118):
the batch key is `(version, key_hash)` but the engine key is serialized from
`(key_hash, version)`. -/
def encValueEntryE (e : (Nat × List Nat) × Option (List Nat)) :
    Except Unit (List Nat × List Nat) :=
  Except.ok (encodeValueKey e.1.2 e.1.1, encodeOptValue e.2)

/-- `TreeWriter::write_node_batch` with the store's concrete serializers. -/
def write_node_batch (batch : NodeBatch) : Except Unit (List (List Nat × List Nat)) :=
  writeNodeBatchGen encNodeEntryE encValueEntryE batch

/-- The put list `write_node_batch` stages on the success path: encoded node
pairs followed by encoded value pairs. -/
def batchPuts (batch : NodeBatch) : List (List Nat × List Nat) :=
  batch.nodes.map (fun e => (encodeNodeKey e.1, encodeNode e.2)) ++
    batch.values.map (fun e => (encodeValueKey e.1.2 e.1.1, encodeOptValue e.2))

/-- Modelled from the spec: one stale-node index, §4.4's bookkeeping marker
for a node superseded at some version (the crate's `StaleNodeIndex` is not in
the adapter sources). -/
structure StaleNodeIndex : Type where
  staleSinceVersion : Nat
  nodeKey : NodeKey
deriving DecidableEq

/-- Modelled from the spec: the crate's `TreeUpdateBatch`, a `NodeBatch`
together with the stale-node index batch produced by one tree update. -/
structure TreeUpdateBatch : Type where
  node_batch : NodeBatch
  stale_node_index_batch : List StaleNodeIndex

/-- `RocksDbTreeStore::write_tree_update_batch` (lines 128-133): write the
node batch; the stale-node index batch is ignored. -/
def write_tree_update_batch (batch : TreeUpdateBatch) :
    Except Unit (List (List Nat × List Nat)) :=
  write_node_batch batch.node_batch

/-- The store's error kinds, §7. -/
inductive StoreError : Type where
  | corruption : StoreError
  | engineFailure : StoreError
  | integrityViolation : StoreError
deriving DecidableEq

/-- Modelled from the spec: `write_preimage` (§4.3; the adapter sources hold
only the read side of the preimage store): writing the bytes already stored
for a hash is a no-op, writing different bytes for an existing hash raises
`IntegrityViolation`, and a fresh hash is stored. -/
def write_preimage (db : DB) (keyHash : List Nat) (bytes : List Nat) :
    Except StoreError DB :=
  match dbGet db (encodePreimageKey keyHash) with
  | some existing =>
    if existing = bytes then Except.ok db
    else Except.error StoreError.integrityViolation
  | none => Except.ok (dbPut db (encodePreimageKey keyHash) bytes)

/-- One abstract versioned value entry: `((content key hash, version),
payload)`, with `none` for a tombstone. -/
abbrev ValueEntry : Type := (List Nat × Nat) × Option (List Nat)

/-- A payload whose length fits the on-disk 64-bit width. -/
def wfPayload : Option (List Nat) → Prop
  | none => True
  | some p => p.length < 2 ^ 64

instance (p : Option (List Nat)) : Decidable (wfPayload p) := by
  cases p <;> unfold wfPayload <;> infer_instance

/-- A value entry whose fields fit the on-disk layout. -/
def wfValueEntry (e : ValueEntry) : Prop :=
  wfHash e.1.1 ∧ e.1.2 < 2 ^ 64 ∧ wfPayload e.2

instance (e : ValueEntry) : Decidable (wfValueEntry e) := by
  unfold wfValueEntry; infer_instance

/-- The engine pair of one abstract value entry, as written by
`write_node_batch`. -/
def encodeValueEntry (e : ValueEntry) : List Nat × List Nat :=
  (encodeValueKey e.1.1 e.1.2, encodeOptValue e.2)

/-- A store state holding the given value entries and preimage entries,
laid out as the engine iterates it. -/
def encodeStore (values : List ValueEntry) (preimages : List (List Nat × List Nat)) :
    DB :=
  values.map encodeValueEntry ++
    preimages.map (fun p => (encodePreimageKey p.1, p.2))

/-- The abstract counterpart of `gvoStep` on decoded value entries. -/
def absStep (keyHash : List Nat) (maxVersion : Nat)
    (acc : Option (List Nat) × Option Nat) (e : ValueEntry) :
    Option (List Nat) × Option Nat :=
  if e.1.1 = keyHash ∧ e.1.2 ≤ maxVersion then
    match acc.2 with
    | none => (e.2, some e.1.2)
    | some lv => if lv < e.1.2 then (e.2, some e.1.2) else acc
  else acc

/-- An entry that `get_value_option keyHash maxVersion` matches. -/
def Hits (keyHash : List Nat) (maxVersion : Nat) (e : ValueEntry) : Prop :=
  e.1.1 = keyHash ∧ e.1.2 ≤ maxVersion

instance (k : NodeKey) : Decidable (wfNodeKey k) := by
  unfold wfNodeKey; infer_instance

instance (n : Node) : Decidable (wfNode n) := by
  cases n <;> unfold wfNode <;> infer_instance

/-- A concrete 32-byte content key hash for concrete instances. -/
def K0 : List Nat := List.replicate 32 0

/-- A concrete node key for concrete instances. -/
def k0 : NodeKey := ⟨0, [1, 2]⟩

/-- A concrete leaf node for concrete instances. -/
def n0 : Node := Node.leaf ⟨List.replicate 32 3, List.replicate 32 4⟩

/-- A concrete batch holding one node write and one value write. -/
def cBatch : NodeBatch := ⟨[(k0, n0)], [((0, K0), some [1])]⟩

/-! ### Codec lemmas -/

lemma u64LE_length (v : Nat) : (u64LE v).length = 8 := rfl

lemma leVal_u64LE {v : Nat} (h : v < 2 ^ 64) : leVal (u64LE v) = v := by
  have h2 : v < 18446744073709551616 := by
    calc v < 2 ^ 64 := h
    _ = 18446744073709551616 := by norm_num
  simp only [u64LE, leVal, List.foldr]
  omega

lemma take_len_append (a b : List Nat) : (a ++ b).take a.length = a := by
  induction a with
  | nil => rfl
  | cons x xs ih => simp [ih]

lemma drop_len_append (a b : List Nat) : (a ++ b).drop a.length = b := by
  induction a with
  | nil => rfl
  | cons x xs ih => simp [ih]

lemma take8_u64LE_append (v : Nat) (b : List Nat) :
    (u64LE v ++ b).take 8 = u64LE v := by
  have := take_len_append (u64LE v) b
  rwa [u64LE_length] at this

lemma drop8_u64LE_append (v : Nat) (b : List Nat) :
    (u64LE v ++ b).drop 8 = b := by
  have := drop_len_append (u64LE v) b
  rwa [u64LE_length] at this

lemma decodeValueKey_encode {h : List Nat} {v : Nat} (hh : h.length = 32)
    (hv : v < 2 ^ 64) : decodeValueKey (encodeValueKey h v) = some (h, v) := by
  unfold decodeValueKey encodeValueKey
  have hlen : (h ++ u64LE v).length = 40 := by
    simp [hh, u64LE_length]
  rw [if_pos (by omega)]
  have e1 : (h ++ u64LE v).take 32 = h := by
    have := take_len_append h (u64LE v); rwa [hh] at this
  have e2 : (h ++ u64LE v).drop 32 = u64LE v := by
    have := drop_len_append h (u64LE v); rwa [hh] at this
  rw [e1, e2]
  have e3 : (u64LE v).take 8 = u64LE v := by
    have := (u64LE v).take_length; rwa [u64LE_length] at this
  rw [e3, leVal_u64LE hv]

lemma decodeOptValue_encode {p : Option (List Nat)}
    (hp : ∀ b, p = some b → b.length < 2 ^ 64) :
    decodeOptValue (encodeOptValue p) = some p := by
  cases p with
  | none => rfl
  | some b =>
    have hb := hp b rfl
    show (if (1 : Nat) = 0 then some none
        else if (1 : Nat) = 1 then
          if 8 ≤ (u64LE b.length ++ b).length ∧
              leVal ((u64LE b.length ++ b).take 8) ≤ ((u64LE b.length ++ b).drop 8).length
          then some (some (((u64LE b.length ++ b).drop 8).take
            (leVal ((u64LE b.length ++ b).take 8))))
          else none
        else none) = some (some b)
    rw [if_neg (by norm_num), if_pos rfl, take8_u64LE_append, drop8_u64LE_append,
      leVal_u64LE hb]
    have hlen : (u64LE b.length ++ b).length = 8 + b.length := by
      simp [u64LE_length]
    rw [if_pos ⟨by omega, le_refl _⟩, b.take_length]

lemma decodePreimageKey_as_value_key {h : List Nat} (hh : h.length = 32) :
    decodeValueKey (encodePreimageKey h) = some (h, 8) := by
  unfold decodeValueKey encodePreimageKey
  have hlen : (h ++ u64LE 8 ++ preimageTag).length = 48 := by
    simp [hh, u64LE_length, preimageTag]
  rw [if_pos (by omega)]
  rw [List.append_assoc]
  have e1 : (h ++ (u64LE 8 ++ preimageTag)).take 32 = h := by
    have := take_len_append h (u64LE 8 ++ preimageTag); rwa [hh] at this
  have e2 : (h ++ (u64LE 8 ++ preimageTag)).drop 32 = u64LE 8 ++ preimageTag := by
    have := drop_len_append h (u64LE 8 ++ preimageTag); rwa [hh] at this
  rw [e1, e2, take8_u64LE_append]
  norm_num [leVal_u64LE]

lemma value_key_length (h : List Nat) (v : Nat) (hh : h.length = 32) :
    (encodeValueKey h v).length = 40 := by
  simp [encodeValueKey, hh, u64LE_length]

lemma preimage_key_length (h : List Nat) (hh : h.length = 32) :
    (encodePreimageKey h).length = 48 := by
  simp [encodePreimageKey, hh, u64LE_length, preimageTag]

/-! ### Lexicographic order lemmas -/

lemma lexLt_append_same (a b c : List Nat) :
    lexLt (a ++ b) (a ++ c) = lexLt b c := by
  induction a with
  | nil => rfl
  | cons x xs ih =>
    show (if x < x then true else if x = x then lexLt (xs ++ b) (xs ++ c) else false)
        = lexLt b c
    rw [if_neg (lt_irrefl x), if_pos rfl, ih]

/-! ### Engine-state lemmas -/

lemma dbGet_of_not_mem (db : DB) (key : List Nat)
    (h : ∀ e ∈ db, e.1 ≠ key) : dbGet db key = none := by
  induction db with
  | nil => rfl
  | cons e rest ih =>
    show (if e.1 = key then some e.2 else dbGet rest key) = none
    rw [if_neg (h e (List.mem_cons_self e rest))]
    exact ih fun x hx => h x (List.mem_cons_of_mem e hx)

lemma dbGet_dbPut_same (db : DB) (key val : List Nat) :
    dbGet (dbPut db key val) key = some val := by
  unfold dbPut
  by_cases hany : db.any (fun e => e.1 = key)
  · rw [if_pos hany]
    induction db with
    | nil => cases hany
    | cons e rest ih =>
      by_cases he : e.1 = key
      · show (if (if e.1 = key then (key, val) else e).1 = key then
            some (if e.1 = key then (key, val) else e).2 else _) = some val
        rw [if_pos he]
        simp
      · have hrest : rest.any (fun e => e.1 = key) := by
          simp only [List.any_cons, he] at hany
          simpa using hany
        show (if (if e.1 = key then (key, val) else e).1 = key then
            some (if e.1 = key then (key, val) else e).2
            else dbGet (rest.map fun e => if e.1 = key then (key, val) else e) key)
          = some val
        rw [if_neg he, if_neg he]
        exact ih hrest
  · rw [if_neg hany]
    induction db with
    | nil => simp [dbGet]
    | cons e rest ih =>
      have he : ¬ e.1 = key := by
        intro hk
        exact hany (by simp [List.any_cons, hk])
      have hrest : ¬ rest.any (fun x => x.1 = key) := by
        intro hr
        exact hany (by simp [List.any_cons, hr])
      show (if e.1 = key then some e.2 else dbGet (rest ++ [(key, val)]) key) = some val
      rw [if_neg he]
      exact ih hrest

lemma dbGet_map_put_other (db : DB) (key val k2 : List Nat) (h : k2 ≠ key) :
    dbGet (db.map fun e => if e.1 = key then (key, val) else e) k2 = dbGet db k2 := by
  induction db with
  | nil => rfl
  | cons e rest ih =>
    show (if (if e.1 = key then (key, val) else e).1 = k2 then
        some (if e.1 = key then (key, val) else e).2
        else dbGet (rest.map fun x => if x.1 = key then (key, val) else x) k2)
      = if e.1 = k2 then some e.2 else dbGet rest k2
    by_cases he : e.1 = key
    · rw [if_pos he]
      have h1 : ¬ (key = k2) := fun hk => h hk.symm
      have h2 : ¬ (e.1 = k2) := by rw [he]; exact h1
      show (if key = k2 then some val else _) = _
      rw [if_neg h1, if_neg h2, ih]
    · rw [if_neg he, ih]

lemma dbGet_append_single_other (db : DB) (key val k2 : List Nat) (h : k2 ≠ key) :
    dbGet (db ++ [(key, val)]) k2 = dbGet db k2 := by
  induction db with
  | nil =>
    show (if key = k2 then some val else none) = none
    rw [if_neg fun hk => h hk.symm]
  | cons e rest ih =>
    show (if e.1 = k2 then some e.2 else dbGet (rest ++ [(key, val)]) k2)
      = if e.1 = k2 then some e.2 else dbGet rest k2
    rw [ih]

lemma dbGet_dbPut_other (db : DB) (key val k2 : List Nat) (h : k2 ≠ key) :
    dbGet (dbPut db key val) k2 = dbGet db k2 := by
  unfold dbPut
  by_cases hany : db.any (fun e => e.1 = key)
  · rw [if_pos hany]
    exact dbGet_map_put_other db key val k2 h
  · rw [if_neg hany]
    exact dbGet_append_single_other db key val k2 h

lemma dbGet_applyPuts_frame (db : DB) (puts : List (List Nat × List Nat))
    (key : List Nat) (h : ∀ p ∈ puts, p.1 ≠ key) :
    dbGet (applyPuts db puts) key = dbGet db key := by
  induction puts generalizing db with
  | nil => rfl
  | cons p rest ih =>
    show dbGet (applyPuts (dbPut db p.1 p.2) rest) key = dbGet db key
    rw [ih (dbPut db p.1 p.2) fun x hx => h x (List.mem_cons_of_mem p hx)]
    exact dbGet_dbPut_other db p.1 p.2 key
      fun hk => h p (List.mem_cons_self p rest) hk.symm

lemma dbGet_applyPuts_mem (db : DB) (puts : List (List Nat × List Nat))
    (key val : List Nat) (hmem : (key, val) ∈ puts)
    (hnd : (puts.map Prod.fst).Nodup) :
    dbGet (applyPuts db puts) key = some val := by
  induction puts generalizing db with
  | nil => cases hmem
  | cons p rest ih =>
    rcases List.mem_cons.mp hmem with hp | hp
    · subst hp
      show dbGet (applyPuts (dbPut db key val) rest) key = some val
      have hkey : ∀ q ∈ rest, q.1 ≠ key := by
        intro q hq hk
        have : key ∈ rest.map Prod.fst := by
          rw [← hk]; exact List.mem_map_of_mem Prod.fst hq
        exact (List.nodup_cons.mp hnd).1 this
      rw [dbGet_applyPuts_frame (dbPut db key val) rest key hkey]
      exact dbGet_dbPut_same db key val
    · exact ih (dbPut db p.1 p.2) hp (List.nodup_cons.mp hnd).2

/-! ### Node codec round-trip lemmas -/

lemma decodeNodeKeyT_encode (k : NodeKey) (hk : wfNodeKey k) (extra : List Nat) :
    decodeNodeKeyT (encodeNodeKey k ++ extra) = some (k, extra) := by
  obtain ⟨hv, hl⟩ := hk
  unfold decodeNodeKeyT encodeNodeKey
  rw [List.append_assoc, List.append_assoc]
  set b := u64LE k.version ++ (u64LE k.path.length ++ (k.path ++ extra)) with hb
  have hblen : b.length = 16 + k.path.length + extra.length := by
    simp [hb, u64LE_length]
    omega
  have e8 : b.drop 8 = u64LE k.path.length ++ (k.path ++ extra) := by
    rw [hb, drop8_u64LE_append]
  have e16 : b.drop 16 = k.path ++ extra := by
    have : (b.drop 8).drop 8 = k.path ++ extra := by
      rw [e8, drop8_u64LE_append]
    rwa [List.drop_drop] at this
  have etake : (b.drop 8).take 8 = u64LE k.path.length := by
    rw [e8, take8_u64LE_append]
  rw [if_pos (by omega)]
  rw [etake, leVal_u64LE hl, e16, take_len_append, drop_len_append,
    hb, take8_u64LE_append, leVal_u64LE hv]
  rw [if_pos (by simp)]

lemma decodeNodeKey_encode (k : NodeKey) (hk : wfNodeKey k) :
    decodeNodeKey (encodeNodeKey k) = some k := by
  unfold decodeNodeKey
  have := decodeNodeKeyT_encode k hk []
  rw [List.append_nil] at this
  rw [this]
  rfl

lemma decodeChildT_encode (c : Nat × NodeKey) (hi : c.1 < 2 ^ 64)
    (hk : wfNodeKey c.2) (extra : List Nat) :
    decodeChildT (encodeChild c ++ extra) = some (c, extra) := by
  unfold decodeChildT encodeChild
  rw [List.append_assoc]
  have hlen : (u64LE c.1 ++ (encodeNodeKey c.2 ++ extra)).length =
      8 + (encodeNodeKey c.2 ++ extra).length := by
    simp [u64LE_length]
  rw [if_pos (by omega), drop8_u64LE_append, decodeNodeKeyT_encode c.2 hk extra,
    take8_u64LE_append, leVal_u64LE hi]

lemma decodeChildren_encode (cs : List (Nat × NodeKey))
    (h : ∀ c ∈ cs, c.1 < 2 ^ 64 ∧ wfNodeKey c.2) (extra : List Nat) :
    decodeChildren cs.length ((cs.map encodeChild).flatten ++ extra) =
      some (cs, extra) := by
  induction cs with
  | nil => rfl
  | cons c rest ih =>
    have hc := h c (List.mem_cons_self c rest)
    show decodeChildren (rest.length + 1)
        (((c :: rest).map encodeChild).flatten ++ extra) = some (c :: rest, extra)
    have hflat : ((c :: rest).map encodeChild).flatten ++ extra =
        encodeChild c ++ ((rest.map encodeChild).flatten ++ extra) := by
      simp [List.flatten_cons, List.append_assoc]
    rw [hflat]
    show (match decodeChildT (encodeChild c ++ ((rest.map encodeChild).flatten ++ extra)) with
      | some (c2, rest2) =>
        match decodeChildren rest.length rest2 with
        | some (cs2, rest3) => some (c2 :: cs2, rest3)
        | none => none
      | none => none) = some (c :: rest, extra)
    simp only [decodeChildT_encode c hc.1 hc.2,
      ih fun x hx => h x (List.mem_cons_of_mem c hx)]

lemma decodeNode_encode (n : Node) (hn : wfNode n) :
    decodeNode (encodeNode n) = some n := by
  cases n with
  | leaf l =>
    obtain ⟨h1, h2⟩ := hn
    show (if (0 : Nat) = 0 then
        if 64 ≤ (l.keyHash ++ l.valueHash).length then
          some (Node.leaf ⟨(l.keyHash ++ l.valueHash).take 32,
            ((l.keyHash ++ l.valueHash).drop 32).take 32⟩)
        else none
      else if (0 : Nat) = 1 then
        if 8 ≤ (l.keyHash ++ l.valueHash).length then
          match decodeChildren (leVal ((l.keyHash ++ l.valueHash).take 8))
              ((l.keyHash ++ l.valueHash).drop 8) with
          | some (cs, _) => some (Node.internal cs)
          | none => none
        else none
      else none) = some (Node.leaf l)
    rw [if_pos rfl]
    have hlen : (l.keyHash ++ l.valueHash).length = 64 := by
      simp [h1, h2]
    have e1 : (l.keyHash ++ l.valueHash).take 32 = l.keyHash := by
      have := take_len_append l.keyHash l.valueHash; rwa [h1] at this
    have e2 : (l.keyHash ++ l.valueHash).drop 32 = l.valueHash := by
      have := drop_len_append l.keyHash l.valueHash; rwa [h1] at this
    have e3 : l.valueHash.take 32 = l.valueHash := by
      have := l.valueHash.take_length; rwa [h2] at this
    rw [if_pos (by omega), e1, e2, e3]
  | internal cs =>
    obtain ⟨hlen, hcs⟩ := hn
    show (if (1 : Nat) = 0 then
        if 64 ≤ (u64LE cs.length ++ (cs.map encodeChild).flatten).length then
          some (Node.leaf ⟨(u64LE cs.length ++ (cs.map encodeChild).flatten).take 32,
            ((u64LE cs.length ++ (cs.map encodeChild).flatten).drop 32).take 32⟩)
        else none
      else if (1 : Nat) = 1 then
        if 8 ≤ (u64LE cs.length ++ (cs.map encodeChild).flatten).length then
          match decodeChildren
              (leVal ((u64LE cs.length ++ (cs.map encodeChild).flatten).take 8))
              ((u64LE cs.length ++ (cs.map encodeChild).flatten).drop 8) with
          | some (cs2, _) => some (Node.internal cs2)
          | none => none
        else none
      else none) = some (Node.internal cs)
    rw [if_neg (by norm_num), if_pos rfl]
    have hb : (u64LE cs.length ++ (cs.map encodeChild).flatten).length =
        8 + (cs.map encodeChild).flatten.length := by
      simp [u64LE_length]
    rw [if_pos (by omega), take8_u64LE_append, drop8_u64LE_append, leVal_u64LE hlen]
    have := decodeChildren_encode cs hcs []
    rw [List.append_nil] at this
    simp only [this]

/-! ### Batch serialization lemmas -/

lemma encodeList_error_of_mem {α : Type} (f : α → Except Unit (List Nat × List Nat))
    (l : List α) (x : α) (hx : x ∈ l) (hf : f x = Except.error ()) :
    encodeList f l = Except.error () := by
  induction l with
  | nil => cases hx
  | cons y rest ih =>
    show (match f y with
      | Except.error e => Except.error e
      | Except.ok p =>
        match encodeList f rest with
        | Except.error e => Except.error e
        | Except.ok ps => Except.ok (p :: ps)) = Except.error ()
    rcases List.mem_cons.mp hx with h | h
    · subst h
      rw [hf]
    · cases hfy : f y with
      | error e => cases e; rfl
      | ok p => rw [ih h]

lemma encodeList_ok_forall2 {α : Type} (f : α → Except Unit (List Nat × List Nat))
    (l : List α) (ps : List (List Nat × List Nat))
    (h : encodeList f l = Except.ok ps) :
    List.Forall₂ (fun x p => f x = Except.ok p) l ps := by
  induction l generalizing ps with
  | nil =>
    unfold encodeList at h
    injection h with h2
    subst h2
    exact List.Forall₂.nil
  | cons x rest ih =>
    unfold encodeList at h
    cases hfx : f x with
    | error e => rw [hfx] at h; cases h
    | ok p =>
      rw [hfx] at h
      cases hrest : encodeList f rest with
      | error e => rw [hrest] at h; cases h
      | ok qs =>
        rw [hrest] at h
        injection h with h2
        subst h2
        exact List.Forall₂.cons hfx (ih qs hrest)

lemma encodeList_ok_of_pointwise {α : Type}
    (f : α → Except Unit (List Nat × List Nat)) (g : α → List Nat × List Nat)
    (hf : ∀ x, f x = Except.ok (g x)) (l : List α) :
    encodeList f l = Except.ok (l.map g) := by
  induction l with
  | nil => rfl
  | cons x rest ih =>
    show (match f x with
      | Except.error e => Except.error e
      | Except.ok p =>
        match encodeList f rest with
        | Except.error e => Except.error e
        | Except.ok ps => Except.ok (p :: ps)) = Except.ok ((x :: rest).map g)
    rw [hf x, ih]
    rfl

lemma write_node_batch_eq (batch : NodeBatch) :
    write_node_batch batch = Except.ok (batchPuts batch) := by
  unfold write_node_batch writeNodeBatchGen batchPuts
  rw [encodeList_ok_of_pointwise encNodeEntryE
      (fun e => (encodeNodeKey e.1, encodeNode e.2)) (fun x => rfl) batch.nodes,
    encodeList_ok_of_pointwise encValueEntryE
      (fun e => (encodeValueKey e.1.2 e.1.1, encodeOptValue e.2)) (fun x => rfl)
      batch.values]

/-! ### Value-scan lemmas -/

lemma gvoStep_encode (K : List Nat) (V : Nat) (e : ValueEntry) (he : wfValueEntry e)
    (acc : Option (List Nat) × Option Nat) :
    gvoStep V K acc (encodeValueEntry e) = absStep K V acc e := by
  obtain ⟨⟨hh, _⟩, hv, hp⟩ := he
  have hp2 : ∀ b, e.2 = some b → b.length < 2 ^ 64 := by
    intro b hb
    rw [hb] at hp
    exact hp
  unfold gvoStep absStep encodeValueEntry
  simp only [decodeValueKey_encode hh hv, decodeOptValue_encode hp2]

lemma foldl_gvo_abs (K : List Nat) (V : Nat) (values : List ValueEntry)
    (hwf : ∀ e ∈ values, wfValueEntry e) (acc : Option (List Nat) × Option Nat) :
    List.foldl (gvoStep V K) acc (values.map encodeValueEntry) =
      List.foldl (absStep K V) acc values := by
  induction values generalizing acc with
  | nil => rfl
  | cons e rest ih =>
    show List.foldl (gvoStep V K) (gvoStep V K acc (encodeValueEntry e))
        (rest.map encodeValueEntry) = List.foldl (absStep K V) (absStep K V acc e) rest
    rw [gvoStep_encode K V e (hwf e (List.mem_cons_self e rest)) acc]
    exact ih (fun x hx => hwf x (List.mem_cons_of_mem e hx)) (absStep K V acc e)

lemma absStep_not_hits (K : List Nat) (V : Nat) (e : ValueEntry)
    (h : ¬ Hits K V e) (acc : Option (List Nat) × Option Nat) :
    absStep K V acc e = acc := by
  unfold absStep
  rw [if_neg (show ¬ (e.1.1 = K ∧ e.1.2 ≤ V) from h)]

lemma absStep_hits_none (K : List Nat) (V : Nat) (e : ValueEntry)
    (acc : Option (List Nat) × Option Nat)
    (hc : e.1.1 = K ∧ e.1.2 ≤ V) (hacc : acc.2 = none) :
    absStep K V acc e = (e.2, some e.1.2) := by
  unfold absStep
  rw [if_pos hc, hacc]

lemma absStep_hits_lt (K : List Nat) (V : Nat) (e : ValueEntry)
    (acc : Option (List Nat) × Option Nat) (lv : Nat)
    (hc : e.1.1 = K ∧ e.1.2 ≤ V) (hacc : acc.2 = some lv) (hlt : lv < e.1.2) :
    absStep K V acc e = (e.2, some e.1.2) := by
  unfold absStep
  rw [if_pos hc, hacc]
  show (if lv < e.1.2 then (e.2, some e.1.2) else acc) = (e.2, some e.1.2)
  rw [if_pos hlt]

lemma absStep_hits_ge (K : List Nat) (V : Nat) (e : ValueEntry)
    (acc : Option (List Nat) × Option Nat) (lv : Nat)
    (hc : e.1.1 = K ∧ e.1.2 ≤ V) (hacc : acc.2 = some lv) (hlt : ¬ lv < e.1.2) :
    absStep K V acc e = acc := by
  unfold absStep
  rw [if_pos hc, hacc]
  show (if lv < e.1.2 then (e.2, some e.1.2) else acc) = acc
  rw [if_neg hlt]

lemma absFold_noHits (K : List Nat) (V : Nat) (values : List ValueEntry)
    (h : ∀ e ∈ values, ¬ Hits K V e) (acc : Option (List Nat) × Option Nat) :
    List.foldl (absStep K V) acc values = acc := by
  induction values generalizing acc with
  | nil => rfl
  | cons e rest ih =>
    show List.foldl (absStep K V) (absStep K V acc e) rest = acc
    rw [absStep_not_hits K V e (h e (List.mem_cons_self e rest)) acc]
    exact ih (fun x hx => h x (List.mem_cons_of_mem e hx)) acc

/-- Invariant carried through the scan of `get_value_option`: after folding
over `rest` with accumulator `acc` summarizing `seen`, `latest_version` is
`none` exactly on no match so far, and otherwise holds the largest matching
version together with that entry payload. -/
lemma absFold_inv (K : List Nat) (V : Nat) :
    ∀ (rest seen : List ValueEntry) (acc : Option (List Nat) × Option Nat),
    (acc.2 = none → ∀ e ∈ seen, ¬ Hits K V e) →
    (∀ v, acc.2 = some v →
        v ≤ V ∧ (∃ p, ((K, v), p) ∈ seen ∧ acc.1 = p) ∧
        ∀ e ∈ seen, Hits K V e → e.1.2 ≤ v) →
    ((List.foldl (absStep K V) acc rest).2 = none →
        ∀ e ∈ seen ++ rest, ¬ Hits K V e) ∧
    (∀ v, (List.foldl (absStep K V) acc rest).2 = some v →
        v ≤ V ∧ (∃ p, ((K, v), p) ∈ seen ++ rest ∧
          (List.foldl (absStep K V) acc rest).1 = p) ∧
        ∀ e ∈ seen ++ rest, Hits K V e → e.1.2 ≤ v) := by
  intro rest
  induction rest with
  | nil =>
    intro seen acc h1 h2
    simp only [List.foldl_nil, List.append_nil]
    exact ⟨h1, h2⟩
  | cons e rest2 ih =>
    intro seen acc h1 h2
    have hstep : (absStep K V acc e).2 = none → ∀ x ∈ seen ++ [e], ¬ Hits K V x := by
      intro hnone x hx
      by_cases hc : e.1.1 = K ∧ e.1.2 ≤ V
      · cases hacc : acc.2 with
        | none =>
          rw [absStep_hits_none K V e acc hc hacc] at hnone
          cases hnone
        | some lv =>
          by_cases hlt : lv < e.1.2
          · rw [absStep_hits_lt K V e acc lv hc hacc hlt] at hnone
            cases hnone
          · rw [absStep_hits_ge K V e acc lv hc hacc hlt] at hnone
            rw [hacc] at hnone
            cases hnone
      · rw [absStep_not_hits K V e hc acc] at hnone
        rcases List.mem_append.mp hx with hx2 | hx2
        · exact h1 hnone x hx2
        · rw [List.mem_singleton.mp hx2]
          exact hc
    have hstep2 : ∀ v, (absStep K V acc e).2 = some v →
        v ≤ V ∧ (∃ p, ((K, v), p) ∈ seen ++ [e] ∧ (absStep K V acc e).1 = p) ∧
        ∀ x ∈ seen ++ [e], Hits K V x → x.1.2 ≤ v := by
      intro v hv
      by_cases hc : e.1.1 = K ∧ e.1.2 ≤ V
      · cases hacc : acc.2 with
        | none =>
          rw [absStep_hits_none K V e acc hc hacc] at hv ⊢
          have hveq : e.1.2 = v := by simpa using hv
          refine ⟨hveq ▸ hc.2, ⟨e.2, ?_, rfl⟩, ?_⟩
          · have he2 : ((K, v), e.2) = e := by rw [← hveq, ← hc.1]
            rw [he2]
            exact List.mem_append_right seen (List.mem_singleton.mpr rfl)
          · intro x hx hhx
            rcases List.mem_append.mp hx with hx2 | hx2
            · exact absurd hhx (h1 hacc x hx2)
            · rw [List.mem_singleton.mp hx2, hveq]
        | some lv =>
          by_cases hlt : lv < e.1.2
          · rw [absStep_hits_lt K V e acc lv hc hacc hlt] at hv ⊢
            have hveq : e.1.2 = v := by simpa using hv
            refine ⟨hveq ▸ hc.2, ⟨e.2, ?_, rfl⟩, ?_⟩
            · have he2 : ((K, v), e.2) = e := by rw [← hveq, ← hc.1]
              rw [he2]
              exact List.mem_append_right seen (List.mem_singleton.mpr rfl)
            · intro x hx hhx
              rcases List.mem_append.mp hx with hx2 | hx2
              · exact le_trans ((h2 lv hacc).2.2 x hx2 hhx) (le_of_lt (hveq ▸ hlt))
              · rw [List.mem_singleton.mp hx2, hveq]
          · rw [absStep_hits_ge K V e acc lv hc hacc hlt] at hv ⊢
            obtain ⟨hle, ⟨p, hpmem, hpeq⟩, hbound⟩ := h2 v hv
            refine ⟨hle, ⟨p, List.mem_append_left [e] hpmem, hpeq⟩, ?_⟩
            intro x hx hhx
            rcases List.mem_append.mp hx with hx2 | hx2
            · exact hbound x hx2 hhx
            · rw [List.mem_singleton.mp hx2]
              have hlv : lv = v := by
                have := hacc.symm.trans hv
                simpa using this
              rw [← hlv]
              exact not_lt.mp hlt
      · rw [absStep_not_hits K V e hc acc] at hv ⊢
        obtain ⟨hle, ⟨p, hpmem, hpeq⟩, hbound⟩ := h2 v hv
        refine ⟨hle, ⟨p, List.mem_append_left [e] hpmem, hpeq⟩, ?_⟩
        intro x hx hhx
        rcases List.mem_append.mp hx with hx2 | hx2
        · exact hbound x hx2 hhx
        · exact absurd hhx (by rw [List.mem_singleton.mp hx2]; exact hc)
    have step := ih (seen ++ [e]) (absStep K V acc e) hstep hstep2
    rw [List.append_assoc, List.singleton_append] at step
    simpa using step

lemma write_preimage_absent (db : DB) (h bytes : List Nat)
    (hg : dbGet db (encodePreimageKey h) = none) :
    write_preimage db h bytes = Except.ok (dbPut db (encodePreimageKey h) bytes) := by
  unfold write_preimage
  rw [hg]

lemma write_preimage_same (db : DB) (h bytes : List Nat)
    (hg : dbGet db (encodePreimageKey h) = some bytes) :
    write_preimage db h bytes = Except.ok db := by
  unfold write_preimage
  rw [hg]
  show (if bytes = bytes then Except.ok db
      else Except.error StoreError.integrityViolation) = Except.ok db
  rw [if_pos rfl]

lemma write_preimage_diff (db : DB) (h b1 b2 : List Nat)
    (hg : dbGet db (encodePreimageKey h) = some b1) (hne : b1 ≠ b2) :
    write_preimage db h b2 = Except.error StoreError.integrityViolation := by
  unfold write_preimage
  rw [hg]
  show (if b1 = b2 then Except.ok db
      else Except.error StoreError.integrityViolation) = _
  rw [if_neg hne]

lemma lexLt_u64LE_small (v1 v2 : Nat) (h12 : v1 < v2) (hv2 : v2 < 256) :
    lexLt (u64LE v1) (u64LE v2) = true := by
  unfold u64LE
  show (if v1 % 256 < v2 % 256 then true
      else if v1 % 256 = v2 % 256 then lexLt _ _ else false) = true
  rw [Nat.mod_eq_of_lt (lt_trans h12 hv2), Nat.mod_eq_of_lt hv2, if_pos h12]

lemma nodup_map_fst_inj (l : List ValueEntry)
    (hnd : (l.map Prod.fst).Nodup) (a b : ValueEntry)
    (ha : a ∈ l) (hb : b ∈ l) (hab : a.1 = b.1) : a = b := by
  induction l with
  | nil => cases ha
  | cons x rest ih =>
    rw [List.map_cons, List.nodup_cons] at hnd
    rcases List.mem_cons.mp ha with ha2 | ha2 <;> rcases List.mem_cons.mp hb with hb2 | hb2
    · rw [ha2, hb2]
    · subst ha2
      have : a.1 ∈ rest.map Prod.fst := by
        rw [hab]
        exact List.mem_map_of_mem Prod.fst hb2
      exact absurd this hnd.1
    · subst hb2
      have : b.1 ∈ rest.map Prod.fst := by
        rw [← hab]
        exact List.mem_map_of_mem Prod.fst ha2
      exact absurd this hnd.1
    · exact ih hnd.2 ha2 hb2

/-! ### Claim theorems -/

/-- C2 counterexample: with the store's little-endian version encoding, the
value-store key for version 256 sorts strictly before the key for version 1
at the same content key, so versions `v1 = 1 < v2 = 256` violate the claimed
byte-lexicographic ordering. -/
theorem value_key_order_violation :
    lexLt (encodeValueKey K0 1) (encodeValueKey K0 256) = false ∧
    lexLt (encodeValueKey K0 256) (encodeValueKey K0 1) = true := by
  decide

/-- C2 amended: for a fixed content key, the encoded value-store key for `v1`
sorts strictly before the one for `v2` only on a restricted version range:
it holds whenever `v1 < v2 < 256` (the little-endian encoding preserves order
on the lowest byte alone), and fails in general. -/
theorem value_key_order_small_versions (h : List Nat) (v1 v2 : Nat)
    (h12 : v1 < v2) (hv2 : v2 < 256) :
    lexLt (encodeValueKey h v1) (encodeValueKey h v2) = true := by
  unfold encodeValueKey
  rw [lexLt_append_same]
  exact lexLt_u64LE_small v1 v2 h12 hv2

/-- C2 witness: the amended ordering at a concrete instance. -/
theorem value_key_order_small_versions_witness :
    lexLt (encodeValueKey K0 1) (encodeValueKey K0 2) = true :=
  value_key_order_small_versions K0 1 2 (by decide) (by decide)

/-- C6 counterexample: `write_tree_update_batch` produces the same result for
a batch with stale-node indices and for the same batch with them removed; the
indices are dropped, not threaded through. -/
theorem stale_indices_dropped :
    write_tree_update_batch ⟨cBatch, [⟨7, k0⟩]⟩ =
      write_tree_update_batch ⟨cBatch, []⟩ := rfl

/-- C6 amended: `write_tree_update_batch` accepts the stale-node index batch
but ignores it entirely: its result depends only on the node batch and equals
`write_node_batch` of that node batch. -/
theorem write_tree_update_batch_ignores_stale (nb : NodeBatch)
    (s1 s2 : List StaleNodeIndex) :
    write_tree_update_batch ⟨nb, s1⟩ = write_tree_update_batch ⟨nb, s2⟩ ∧
    write_tree_update_batch ⟨nb, s1⟩ = write_node_batch nb :=
  ⟨rfl, rfl⟩

/-- C7 counterexample: the encoded preimage key for the hash `K0` is a valid
decode target of the versioned-value namespace: the value-key decoder accepts
it and reads it as the value entry `(K0, 8)`. -/
theorem preimage_key_decodes_as_value_key :
    decodeValueKey (encodePreimageKey K0) = some (K0, 8) := by
  decide

/-- C7 amended: value keys and preimage keys are never byte-identical (their
lengths are 40 and 48), but the namespaces are not mutually decode-unambiguous:
every preimage key is a valid decode target of the value namespace, decoding to
the same hash at version 8. -/
theorem namespace_keys_disjoint_but_decode_ambiguous (h h2 : List Nat) (v : Nat)
    (hh : h.length = 32) (hh2 : h2.length = 32) :
    encodeValueKey h2 v ≠ encodePreimageKey h ∧
    decodeValueKey (encodePreimageKey h) = some (h, 8) := by
  constructor
  · intro he
    have hlen := congrArg List.length he
    rw [value_key_length h2 v hh2, preimage_key_length h hh] at hlen
    exact absurd hlen (by norm_num)
  · exact decodePreimageKey_as_value_key hh

/-- C7 witness: the amended statement at a concrete hash and version. -/
theorem namespace_keys_disjoint_witness :
    encodeValueKey K0 5 ≠ encodePreimageKey K0 ∧
    decodeValueKey (encodePreimageKey K0) = some (K0, 8) :=
  namespace_keys_disjoint_but_decode_ambiguous K0 K0 5 (by decide) (by decide)

/-- C1 counterexample: a store holding one value entry for `K0` (version 0,
payload `[97]`) and one preimage entry for `K0` (bytes `[0]`).  The preimage
key decodes in the value namespace as `(K0, 8)` and its bytes decode as a
tombstone, so `get_value_option 10 K0` returns `Ok(None)` instead of the
payload `[97]` of the sole value entry with version at most 10. -/
theorem get_value_option_preimage_pollution :
    get_value_option (encodeStore [((K0, 0), some [97])] [(K0, [0])]) 10 K0
        = Except.ok none ∧
    get_value_option (encodeStore [((K0, 0), some [97])] [(K0, [0])]) 10 K0
        ≠ Except.ok (some [97]) := by
  decide

/-- C1 amended: restricted to store states holding only value-store entries
(with pairwise distinct `(hash, version)` keys), `get_value_option` returns
the payload of the entry for `K` with the largest version at most `V`, and
`None` when no entry for `K` at version at most `V` exists; entries of other
namespaces (such as a stored preimage for `K`) can corrupt the result. -/
theorem get_value_option_latest (K : List Nat) (V : Nat)
    (values : List ValueEntry)
    (hwf : ∀ e ∈ values, wfValueEntry e)
    (hnd : (values.map Prod.fst).Nodup) :
    ((∀ e ∈ values, ¬ (e.1.1 = K ∧ e.1.2 ≤ V)) →
        get_value_option (encodeStore values []) V K = Except.ok none) ∧
    (∀ e ∈ values, e.1.1 = K → e.1.2 ≤ V →
        (∀ e2 ∈ values, e2.1.1 = K → e2.1.2 ≤ V → e2.1.2 ≤ e.1.2) →
        get_value_option (encodeStore values []) V K = Except.ok e.2) := by
  have hdb : encodeStore values [] = values.map encodeValueEntry := by
    simp [encodeStore]
  constructor
  · intro hno
    unfold get_value_option
    rw [hdb, foldl_gvo_abs K V values hwf (none, none),
      absFold_noHits K V values hno (none, none)]
  · intro e he hK hV hmax
    unfold get_value_option
    rw [hdb, foldl_gvo_abs K V values hwf (none, none)]
    obtain ⟨inv1, inv2⟩ := absFold_inv K V values [] (none, none)
      (fun _ x hx => absurd hx (List.not_mem_nil x))
      (fun v hv => by cases hv)
    rw [List.nil_append] at inv1 inv2
    cases hres : (List.foldl (absStep K V) (none, none) values).2 with
    | none => exact absurd ⟨hK, hV⟩ (inv1 hres e he)
    | some v =>
      obtain ⟨hle, ⟨p, hpmem, hpeq⟩, hbound⟩ := inv2 v hres
      have hvle : v ≤ e.1.2 := hmax ((K, v), p) hpmem rfl hle
      have hvge : e.1.2 ≤ v := hbound e he ⟨hK, hV⟩
      have hveq : v = e.1.2 := le_antisymm hvle hvge
      have hfst : (((K, v), p) : ValueEntry).1 = e.1 := by
        have : e.1 = (e.1.1, e.1.2) := rfl
        rw [this, ← hK, ← hveq]
      have heq : (((K, v), p) : ValueEntry) = e :=
        nodup_map_fst_inj values hnd ((K, v), p) e hpmem he hfst
      rw [hpeq]
      rw [show p = e.2 from congrArg Prod.snd heq]

/-- C1 witness: the amended lookup at a concrete single-entry store. -/
theorem get_value_option_latest_witness :
    get_value_option (encodeStore [((K0, 0), some [97])] []) 0 K0
      = Except.ok (some [97]) :=
  (get_value_option_latest K0 0 [((K0, 0), some [97])]
      (by decide) (by decide)).2
    ((K0, 0), some [97]) (List.mem_singleton.mpr rfl) rfl (le_refl 0)
    (fun e2 he2 _ _ => by rw [List.mem_singleton.mp he2])

/-- C3 counterexample: a store entry for `K0` at version 0 whose value bytes
`[7]` are present but fail to decode as `Option<Vec<u8>>`; `get_value_option`
returns `Ok(None)` — the decode failure is masked as absence instead of being
surfaced as an error. -/
theorem get_value_option_masks_decode_failure :
    decodeOptValue [7] = none ∧
    dbGet [(encodeValueKey K0 0, [7])] (encodeValueKey K0 0) = some [7] ∧
    get_value_option [(encodeValueKey K0 0, [7])] 0 K0 = Except.ok none := by
  decide

/-- C3 amended: `get_node_option` does surface decode failures of present node
bytes as errors, and `preimage` performs no decoding at all (it returns the
stored bytes raw); but `get_value_option` never returns an error: it silently
skips any entry whose key or value bytes fail to decode. -/
theorem decode_failure_surfacing (db : DB) (k : NodeKey) (bytes : List Nat)
    (hgot : dbGet db (encodeNodeKey k) = some bytes)
    (hbad : decodeNode bytes = none) :
    get_node_option db k = Except.error () ∧
    (∀ (db2 : DB) (V : Nat) (K : List Nat),
        ∃ r, get_value_option db2 V K = Except.ok r) ∧
    (∀ (db2 : DB) (h : List Nat),
        preimage db2 h = Except.ok (dbGet db2 (encodePreimageKey h))) := by
  refine ⟨?_, fun db2 V K => ⟨_, rfl⟩, fun db2 h => rfl⟩
  unfold get_node_option
  rw [hgot]
  show (match decodeNode bytes with
    | some n => Except.ok (some n)
    | none => Except.error ()) = Except.error ()
  rw [hbad]

/-- C3 witness: the amended behavior at a concrete store with undecodable
node bytes. -/
theorem decode_failure_surfacing_witness :
    get_node_option [(encodeNodeKey k0, [7])] k0 = Except.error () :=
  (decode_failure_surfacing [(encodeNodeKey k0, [7])] k0 [7]
      (by decide) (by decide)).1

/-- C4 counterexample: the store holding a single tombstone entry for `K0` at
version 0 and the empty store give the same observable answer `Ok(None)` to
`get_value_option 5 K0`; a caller cannot tell a deleted key from one that
never existed. -/
theorem tombstone_absent_same_result :
    get_value_option (encodeStore [((K0, 0), none)] []) 5 K0 = Except.ok none ∧
    get_value_option (encodeStore [] []) 5 K0 = Except.ok none := by
  decide

/-- C4 amended: `get_value_option` returns `Ok(None)` both when no entry for
`K` exists at version at most `V` and when the latest such entry is a
tombstone; the two cases are not distinguished in the result. -/
theorem get_value_option_none_both_cases (K : List Nat) (V v : Nat)
    (hK : wfHash K) (hv : v < 2 ^ 64) (hle : v ≤ V) :
    get_value_option [] V K = Except.ok none ∧
    get_value_option (encodeStore [((K, v), none)] []) V K = Except.ok none := by
  refine ⟨rfl, ?_⟩
  unfold get_value_option
  have hdb : encodeStore [((K, v), none)] [] =
      [encodeValueEntry ((K, v), none)] := by
    simp [encodeStore]
  rw [hdb]
  have hfold : List.foldl (gvoStep V K) (none, none)
      [encodeValueEntry ((K, v), none)] = absStep K V (none, none) ((K, v), none) := by
    show gvoStep V K (none, none) (encodeValueEntry ((K, v), none)) = _
    exact gvoStep_encode K V ((K, v), none) ⟨hK, hv, trivial⟩ (none, none)
  rw [hfold, absStep_hits_none K V ((K, v), none) (none, none) ⟨rfl, hle⟩ rfl]

/-- C4 witness: the amended statement at a concrete hash and versions. -/
theorem get_value_option_none_both_cases_witness :
    get_value_option [] 5 K0 = Except.ok none ∧
    get_value_option (encodeStore [((K0, 0), none)] []) 5 K0 = Except.ok none :=
  get_value_option_none_both_cases K0 5 0 (by decide) (by decide) (by decide)

/-- C5: `write_node_batch` is all-or-nothing.  If serializing any node pair
or any value pair fails, the whole operation returns the error, no engine
write is issued, and the store state is unchanged; otherwise it issues
exactly one atomic engine write whose puts are precisely the serialized node
pairs followed by the serialized value pairs — never split across engine
transactions. -/
theorem write_node_batch_atomic
    (encNode : NodeKey × Node → Except Unit (List Nat × List Nat))
    (encVal : (Nat × List Nat) × Option (List Nat) → Except Unit (List Nat × List Nat))
    (db : DB) (batch : NodeBatch) :
    ((∃ x ∈ batch.nodes, encNode x = Except.error ()) →
        writeNodeBatchGen encNode encVal batch = Except.error () ∧
        writeNodeBatchOps encNode encVal batch = [] ∧
        applyOps db (writeNodeBatchOps encNode encVal batch) = db) ∧
    ((∃ x ∈ batch.values, encVal x = Except.error ()) →
        writeNodeBatchGen encNode encVal batch = Except.error () ∧
        writeNodeBatchOps encNode encVal batch = [] ∧
        applyOps db (writeNodeBatchOps encNode encVal batch) = db) ∧
    (∀ puts, writeNodeBatchGen encNode encVal batch = Except.ok puts →
        writeNodeBatchOps encNode encVal batch = [EngineOp.atomicWrite puts] ∧
        applyOps db (writeNodeBatchOps encNode encVal batch) = applyPuts db puts ∧
        ∃ nodePuts valuePuts, puts = nodePuts ++ valuePuts ∧
          List.Forall₂ (fun x p => encNode x = Except.ok p) batch.nodes nodePuts ∧
          List.Forall₂ (fun x p => encVal x = Except.ok p) batch.values valuePuts) := by
  refine ⟨?_, ?_, ?_⟩
  · rintro ⟨x, hx, hfx⟩
    have herr : writeNodeBatchGen encNode encVal batch = Except.error () := by
      unfold writeNodeBatchGen
      rw [encodeList_error_of_mem encNode batch.nodes x hx hfx]
    refine ⟨herr, ?_, ?_⟩
    · unfold writeNodeBatchOps
      rw [herr]
    · unfold writeNodeBatchOps
      rw [herr]
      rfl
  · rintro ⟨x, hx, hfx⟩
    have herr : writeNodeBatchGen encNode encVal batch = Except.error () := by
      unfold writeNodeBatchGen
      cases hn : encodeList encNode batch.nodes with
      | error u => rfl
      | ok nodePuts =>
        show (match encodeList encVal batch.values with
          | Except.error e => Except.error e
          | Except.ok valuePuts => Except.ok (nodePuts ++ valuePuts)) = Except.error ()
        rw [encodeList_error_of_mem encVal batch.values x hx hfx]
    refine ⟨herr, ?_, ?_⟩
    · unfold writeNodeBatchOps
      rw [herr]
    · unfold writeNodeBatchOps
      rw [herr]
      rfl
  · intro puts hok
    refine ⟨?_, ?_, ?_⟩
    · unfold writeNodeBatchOps
      rw [hok]
    · unfold writeNodeBatchOps
      rw [hok]
      rfl
    · unfold writeNodeBatchGen at hok
      cases hn : encodeList encNode batch.nodes with
      | error u => rw [hn] at hok; cases hok
      | ok nodePuts =>
        rw [hn] at hok
        cases hv : encodeList encVal batch.values with
        | error u =>
          rw [hv] at hok
          cases hok
        | ok valuePuts =>
          rw [hv] at hok
          injection hok with h2
          exact ⟨nodePuts, valuePuts, h2.symm,
            encodeList_ok_forall2 encNode batch.nodes nodePuts hn,
            encodeList_ok_forall2 encVal batch.values valuePuts hv⟩

/-- C5 witness: with the store's serializers the concrete batch yields one
atomic write of its puts; with a failing node serializer, no engine write. -/
theorem write_node_batch_atomic_witness :
    writeNodeBatchOps encNodeEntryE encValueEntryE cBatch
        = [EngineOp.atomicWrite (batchPuts cBatch)] ∧
    writeNodeBatchOps (fun _ => Except.error ()) encValueEntryE cBatch = [] :=
  ⟨((write_node_batch_atomic encNodeEntryE encValueEntryE [] cBatch).2.2
      (batchPuts cBatch) (write_node_batch_eq cBatch)).1,
   ((write_node_batch_atomic (fun _ => Except.error ()) encValueEntryE [] cBatch).1
      ⟨(k0, n0), List.mem_singleton.mpr rfl, rfl⟩).2.1⟩

/-- C8: the node codec round-trips — decoding an encoded `NodeKey` or `Node`
yields the original value — and consequently a node written by
`write_node_batch` (whose encoded key is unique within the batch puts) is
read back unchanged by `get_node_option` at the same `NodeKey`, over any
prior store state. -/
theorem node_roundtrip_readback (k : NodeKey) (n : Node) (batch : NodeBatch)
    (db : DB) (hk : wfNodeKey k) (hn : wfNode n)
    (hmem : (k, n) ∈ batch.nodes)
    (hnd : ((batchPuts batch).map Prod.fst).Nodup) :
    decodeNodeKey (encodeNodeKey k) = some k ∧
    decodeNode (encodeNode n) = some n ∧
    write_node_batch batch = Except.ok (batchPuts batch) ∧
    get_node_option (applyPuts db (batchPuts batch)) k = Except.ok (some n) := by
  refine ⟨decodeNodeKey_encode k hk, decodeNode_encode n hn,
    write_node_batch_eq batch, ?_⟩
  have hpmem : (encodeNodeKey k, encodeNode n) ∈ batchPuts batch := by
    unfold batchPuts
    exact List.mem_append_left _
      (List.mem_map_of_mem (fun e => (encodeNodeKey e.1, encodeNode e.2)) hmem)
  have hget := dbGet_applyPuts_mem db (batchPuts batch) (encodeNodeKey k)
    (encodeNode n) hpmem hnd
  unfold get_node_option
  rw [hget]
  show (match decodeNode (encodeNode n) with
    | some n2 => Except.ok (some n2)
    | none => Except.error ()) = Except.ok (some n)
  rw [decodeNode_encode n hn]

/-- C8 witness: the concrete batch written into an empty store reads back its
node unchanged. -/
theorem node_roundtrip_readback_witness :
    get_node_option (applyPuts [] (batchPuts cBatch)) k0 = Except.ok (some n0) :=
  (node_roundtrip_readback k0 n0 cBatch [] (by decide) (by decide)
      (List.mem_singleton.mpr rfl) (by decide)).2.2.2

/-- C9: writing a preimage a second time with the same bytes returns the
unchanged store without error, and writing different bytes for a hash that
already has a stored preimage raises `IntegrityViolation` instead of
overwriting. -/
theorem write_preimage_idempotent_flags (db : DB) (h bytes bytes2 : List Nat) :
    (∀ db2, write_preimage db h bytes = Except.ok db2 →
        write_preimage db2 h bytes = Except.ok db2) ∧
    (dbGet db (encodePreimageKey h) = some bytes → bytes ≠ bytes2 →
        write_preimage db h bytes2 = Except.error StoreError.integrityViolation) := by
  constructor
  · intro db2 hw
    cases hg : dbGet db (encodePreimageKey h) with
    | some ex =>
      by_cases hex : ex = bytes
      · subst hex
        rw [write_preimage_same db h ex hg] at hw
        injection hw with h2
        subst h2
        exact write_preimage_same db h ex hg
      · rw [write_preimage_diff db h ex bytes hg hex] at hw
        cases hw
    | none =>
      rw [write_preimage_absent db h bytes hg] at hw
      injection hw with h2
      subst h2
      exact write_preimage_same (dbPut db (encodePreimageKey h) bytes) h bytes
        (dbGet_dbPut_same db (encodePreimageKey h) bytes)
  · intro hg hne
    exact write_preimage_diff db h bytes bytes2 hg hne

/-- C9 witness: the concrete double write is a no-op and the concrete
conflicting write raises `IntegrityViolation`. -/
theorem write_preimage_idempotent_witness :
    write_preimage (dbPut [] (encodePreimageKey K0) [1]) K0 [1]
        = Except.ok (dbPut [] (encodePreimageKey K0) [1]) ∧
    write_preimage [(encodePreimageKey K0, [1])] K0 [2]
        = Except.error StoreError.integrityViolation :=
  ⟨(write_preimage_idempotent_flags [] K0 [1] [2]).1
      (dbPut [] (encodePreimageKey K0) [1]) rfl,
   (write_preimage_idempotent_flags [(encodePreimageKey K0, [1])] K0 [1] [2]).2
      (by decide) (by decide)⟩

/-- C10: every read operation — `get_node_option`, `get_rightmost_leaf`,
`get_value_option`, `preimage` — issues only non-mutating engine operations,
so the engine state after the call equals the state before it. -/
theorem reads_preserve_state (db : DB) (k : NodeKey) (h : List Nat) :
    ((∀ op ∈ getNodeOptionOps k, isWriteOp op = false) ∧
        applyOps db (getNodeOptionOps k) = db) ∧
    ((∀ op ∈ getRightmostLeafOps, isWriteOp op = false) ∧
        applyOps db getRightmostLeafOps = db ∧
        get_rightmost_leaf db = Except.ok none) ∧
    ((∀ op ∈ getValueOptionOps, isWriteOp op = false) ∧
        applyOps db getValueOptionOps = db) ∧
    ((∀ op ∈ preimageOps h, isWriteOp op = false) ∧
        applyOps db (preimageOps h) = db) := by
  refine ⟨⟨?_, rfl⟩, ⟨?_, rfl, rfl⟩, ⟨?_, rfl⟩, ⟨?_, rfl⟩⟩
  · intro op hop
    rw [List.mem_singleton.mp hop]
    rfl
  · intro op hop
    exact absurd hop (List.not_mem_nil op)
  · intro op hop
    rw [List.mem_singleton.mp hop]
    rfl
  · intro op hop
    rw [List.mem_singleton.mp hop]
    rfl

end JmtDb
